import Mathlib

/-!
# go-avro schema codec: shallow embedding and verification

This file embeds the Avro schema data model, the canonical JSON encoder
(`Marshal`/`MarshalJSON` methods), the discriminating decoder (`Unmarshal`),
the equality relation (`Equal` with the per-variant `isEqual` methods) and the
union membership test (`Contains`/`Union.Contains`) of the go-avro repository,
and proves the specified properties about them.

The JSON layer is modelled as a tree (`Json`) rather than byte text: the Go
code delegates all text parsing/printing to `encoding/json`, and every schema
operation is defined over the parsed tree shape.  Numbers are modelled as `Int`
(the encoder only ever emits integers).  Go `map[string]interface{}` values are
serialized by `encoding/json` with keys in sorted order; we emit the same
sorted key order, though no property below depends on key order because the
decoder reads object fields by key lookup.
-/

namespace GoAvro

/-- A parsed JSON tree, the generic value model of `encoding/json`
(`interface{}` on decode, and the encoder's input shapes).  Objects keep their
field order; `encoding/json` resolves duplicate keys by letting the last
occurrence win, which `lookupLast` below reproduces. -/
inductive Json where
  | null
  | bool (b : Bool)
  | num (n : Int)
  | str (s : String)
  | arr (elems : List Json)
  | obj (fields : List (String × Json))

/-- The six stateless logical types (`date`, `timeMillis`, ... singletons in
`schema.go`). -/
inductive LogicalKind where
  | date
  | timeMillis
  | timeMicros
  | timestampMillis
  | timestampMicros
  | duration
deriving DecidableEq

/-- The logical type name, as returned by each singleton's `Type()` method. -/
def LogicalKind.name : LogicalKind → String
  | .date => "date"
  | .timeMillis => "time-millis"
  | .timeMicros => "time-micros"
  | .timestampMillis => "timestamp-millis"
  | .timestampMicros => "timestamp-micros"
  | .duration => "duration"

mutual
/-- The `Schema` sum type: one constructor per Go variant
(`Primitive`, the six logical singletons, `Record`, `Enum`, `Array`, `Map`,
`Union`, `Fixed`, `Decimal`).  `Array.Items`, `Map.Values` are `Option`al
because the Go fields hold a nilable `Schema` interface value (`none` models
Go `nil`, which the decoder can produce when the corresponding key is
absent). -/
inductive Schema where
  | primitive (name : String)
  | logical (kind : LogicalKind)
  | record (name ns doc : String) (aliases : List String)
      (fields : List SField)
  | enum (name ns doc : String) (aliases : List String)
      (symbols : List String)
  | array (items : Option Schema)
  | map (values : Option Schema)
  | union (members : List Schema)
  | fixed (name ns : String) (size : Int) (aliases : List String)
  | decimal (precision scale : Int)

/-- The Go `Field` struct (nested in `Record`): name, a nilable schema
(`ftype`, `none` = Go nil interface), doc, an untyped default
(`Option Json`, `none` = Go nil interface, i.e. absent), aliases, order. -/
inductive SField where
  | mk (name : String) (ftype : Option Schema) (doc : String)
      (fdefault : Option Json) (aliases : List String) (order : String)
end

def SField.name : SField → String
  | .mk n _ _ _ _ _ => n

def SField.ftype : SField → Option Schema
  | .mk _ t _ _ _ _ => t

/-- The Go type assertion `s1.(Primitive)` used by `Equal`'s early return. -/
def isPrim : Schema → Bool
  | .primitive _ => true
  | _ => false

/-- `Type()` of each variant: the Avro type-name string. -/
def typeName : Schema → String
  | .primitive p => p
  | .logical k => k.name
  | .record _ _ _ _ _ => "record"
  | .enum _ _ _ _ _ => "enum"
  | .array _ => "array"
  | .map _ => "map"
  | .union _ => "union"
  | .fixed _ _ _ _ => "fixed"
  | .decimal _ _ => "decimal"

mutual
/-- `Equal` from the source: type-name fast rejection, early `true` for a
`Primitive` first argument, early `true` when the first argument's type-name
is one of the six logical names, then a type switch dispatching the
per-variant `isEqual` methods.  The Go switch lists `Union`, `*Record`,
`*Enum`, `*Map`, `*Array`, `*Decimal` — `*Fixed` is absent, so two `Fixed`
values fall through to the final `return false`. -/
def Equal (s1 s2 : Schema) : Bool :=
  if typeName s1 ≠ typeName s2 then false
  else if isPrim s1 then true
  else if typeName s1 = "date" ∨ typeName s1 = "time-millis"
      ∨ typeName s1 = "time-micros" ∨ typeName s1 = "timestamp-millis"
      ∨ typeName s1 = "timestamp-micros" ∨ typeName s1 = "duration" then true
  else
    match s1 with
    | .union l1 =>
      -- Union.isEqual: length check, then element-wise Equal in order.
      match s2 with
      | .union l2 =>
        if l1.length ≠ l2.length then false
        else unionIsEqual l1 l2
      | _ => false
    | .record n1 ns1 _ _ fs1 =>
      -- Record.isEqual: name, namespace, field count, then field-wise.
      match s2 with
      | .record n2 ns2 _ _ fs2 =>
        if n1 ≠ n2 then false
        else if ns1 ≠ ns2 then false
        else if fs1.length ≠ fs2.length then false
        else fieldsIsEqual fs1 fs2
      | _ => false
    | .enum n1 ns1 _ _ sy1 =>
      -- Enum.isEqual: name, namespace, symbols element-wise.
      match s2 with
      | .enum n2 ns2 _ _ sy2 =>
        if n1 ≠ n2 then false
        else if ns1 ≠ ns2 then false
        else if sy1.length ≠ sy2.length then false
        else sy1 == sy2
      | _ => false
    | .map v1 =>
      -- Map.isEqual: Equal(m.Values, x.Values).
      match s2 with
      | .map v2 => optEqual v1 v2
      | _ => false
    | .array i1 =>
      -- Array.isEqual: Equal(a.Items, x.Items).
      match s2 with
      | .array i2 => optEqual i1 i2
      | _ => false
    | .decimal p1 sc1 =>
      -- Decimal.isEqual: precision and scale.
      match s2 with
      | .decimal p2 sc2 => p1 == p2 && sc1 == sc2
      | _ => false
    | _ => false

/-- `Equal` applied through the nilable `Schema` interface fields
(`Array.Items`, `Map.Values`, `Field.Type`).  Go would dereference a nil
interface and panic when either side is nil; that situation is unreachable in
every property proved below, and is mapped to `false`. -/
def optEqual : Option Schema → Option Schema → Bool
  | some a, some b => Equal a b
  | _, _ => false

/-- The element-wise loop of `Union.isEqual` (after its length check). -/
def unionIsEqual : List Schema → List Schema → Bool
  | [], _ => true
  | _ :: _, [] => false
  | a :: as1, b :: bs => Equal a b && unionIsEqual as1 bs

/-- The field-wise loop of `Record.isEqual` (after its length check). -/
def fieldsIsEqual : List SField → List SField → Bool
  | [], _ => true
  | _ :: _, [] => false
  | f :: fs, x :: xs => fieldIsEqual f x && fieldsIsEqual fs xs

/-- `Field.isEqual`: names equal and types `Equal`; `doc`, `default`,
`aliases`, `order` are never compared (the source carries TODOs for them). -/
def fieldIsEqual : SField → SField → Bool
  | .mk n1 t1 _ _ _ _, .mk n2 t2 _ _ _ _ =>
    if n1 ≠ n2 then false
    else optEqual t1 t2
end

/-- The loop of `Union.Contains`: scan the members in order, returning true at
the first member `s` with `Equal(s, t)`. -/
def unionContains : List Schema → Schema → Bool
  | [], _ => false
  | s :: rest, t => if Equal s t then true else unionContains rest t

/-- `Contains(s, m)`: when `s` is a `Union` (the Go type assertion
`s.(Union)`), test membership via `Union.Contains`; otherwise fall back to
`Equal(s, m)`. -/
def Contains (s m : Schema) : Bool :=
  match s with
  | .union l => unionContains l m
  | _ => Equal s m

/-! ## Canonical encoder (`Marshal` and the `MarshalJSON` methods)

Each variant's `MarshalJSON` builds a `map[string]interface{}` (serialized by
`encoding/json` with keys in sorted order, reproduced here) except `Field`,
which is serialized from its struct tags in declaration order
(`name`, `type`, then `doc`/`default`/`aliases`/`order` under `omitempty`).
For the `Default` field, whose declared Go type is `interface{}`,
`omitempty` omits exactly the nil interface (`none`). -/

/-- A JSON array of strings (`[]string` marshalling). -/
def strArr (l : List String) : Json := .arr (l.map .str)

mutual
/-- `Marshal` / the variant `MarshalJSON` methods, producing the JSON tree. -/
def marshalSchema : Schema → Json
  | .primitive p => .str p
  | .logical .date =>
    .obj [("logicalType", .str "date"), ("type", .str "int")]
  | .logical .timeMillis =>
    .obj [("logicalType", .str "time-millis"), ("type", .str "int")]
  | .logical .timeMicros =>
    .obj [("logicalType", .str "time-micros"), ("type", .str "long")]
  | .logical .timestampMillis =>
    .obj [("logicalType", .str "timestamp-millis"), ("type", .str "long")]
  | .logical .timestampMicros =>
    .obj [("logicalType", .str "timestamp-micros"), ("type", .str "long")]
  | .logical .duration =>
    .obj [("logicalType", .str "duration"), ("size", .num 12),
          ("type", .str "fixed")]
  | .record n ns d al fs =>
    .obj ((if al = [] then [] else [("aliases", strArr al)])
      ++ (if d = "" then [] else [("doc", .str d)])
      ++ [("fields", .arr (marshalFields fs)), ("name", .str n)]
      ++ (if ns = "" then [] else [("namespace", .str ns)])
      ++ [("type", .str "record")])
  | .enum n ns d al sy =>
    .obj ((if al = [] then [] else [("aliases", strArr al)])
      ++ (if d = "" then [] else [("doc", .str d)])
      ++ [("name", .str n)]
      ++ (if ns = "" then [] else [("namespace", .str ns)])
      ++ [("symbols", strArr sy), ("type", .str "enum")])
  | .array i =>
    .obj [("items", marshalOpt i), ("type", .str "array")]
  | .map v =>
    .obj [("type", .str "map"), ("values", marshalOpt v)]
  | .union l => .arr (marshalList l)
  | .fixed n ns _ al =>
    -- Fixed.MarshalJSON never emits the Size field (source quirk).
    .obj ((if al = [] then [] else [("aliases", strArr al)])
      ++ [("name", .str n)]
      ++ (if ns = "" then [] else [("namespace", .str ns)])
      ++ [("type", .str "fixed")])
  | .decimal p sc =>
    .obj [("logicalType", .str "decimal"), ("precision", .num p),
          ("scale", .num sc), ("type", .str "bytes")]

/-- Marshalling through a nilable `Schema` interface value: Go serializes a
nil interface as JSON `null`. -/
def marshalOpt : Option Schema → Json
  | none => .null
  | some s => marshalSchema s

/-- A `Field` value marshalled from its struct tags. -/
def marshalField : SField → Json
  | .mk n t d df al o =>
    .obj ([("name", .str n), ("type", marshalOpt t)]
      ++ (if d = "" then [] else [("doc", .str d)])
      ++ (match df with | none => [] | some j => [("default", j)])
      ++ (if al = [] then [] else [("aliases", strArr al)])
      ++ (if o = "" then [] else [("order", .str o)]))

def marshalFields : List SField → List Json
  | [] => []
  | f :: fs => marshalField f :: marshalFields fs

def marshalList : List Schema → List Json
  | [] => []
  | s :: rest => marshalSchema s :: marshalList rest
end

/-! ## Discriminating decoder (`Unmarshal` and the `UnmarshalJSON` methods)

`encoding/json` is modelled at the tree level: an object is a list of
key/value pairs, and a struct-field read is a key lookup in which the last
occurrence of a duplicated key wins (Go processes the keys in document order,
each occurrence overwriting the previous one).  Tag-less proxy structs
(`Array`/`Map`) rely on `encoding/json`'s case-insensitive fallback to match
`Type`/`Items`/`Values` to lowercase keys; only the lowercase spelling (the
one the encoder produces) is modelled.  Error messages for failures that
`encoding/json` itself raises are approximations; the three `avroschema:`
error strings are reproduced verbatim. -/

/-- Key lookup in a JSON object, last occurrence winning. -/
def lookupLast (l : List (String × Json)) (k : String) : Option Json :=
  match l with
  | [] => none
  | (k', v) :: rest =>
    match lookupLast rest k with
    | some v' => some v'
    | none => if k' = k then some v else none

theorem sizeOf_lookupLast {l : List (String × Json)} {k : String} {v : Json}
    (h : lookupLast l k = some v) : sizeOf v < sizeOf l := by
  induction l with
  | nil => simp [lookupLast] at h
  | cons p rest ih =>
    obtain ⟨k', v'⟩ := p
    rw [lookupLast] at h
    cases hrest : lookupLast rest k with
    | some w =>
      rw [hrest] at h
      cases h
      have := ih hrest
      simp only [List.cons.sizeOf_spec]
      omega
    | none =>
      rw [hrest] at h
      by_cases hk : k' = k
      · simp only [hk, if_pos rfl] at h
        cases h
        simp only [List.cons.sizeOf_spec, Prod.mk.sizeOf_spec]
        omega
      · simp [hk] at h

/-- Reading a `string` struct field: an absent key or JSON `null` leaves the
zero value `""`; a non-string value is a decode error. -/
def getString (l : List (String × Json)) (k : String) : Except String String :=
  match lookupLast l k with
  | none => .ok ""
  | some .null => .ok ""
  | some (.str s) => .ok s
  | some _ => .error ("json: cannot unmarshal value into Go string field " ++ k)

/-- Reading an `int` struct field: absent or `null` leaves `0`. -/
def getInt (l : List (String × Json)) (k : String) : Except String Int :=
  match lookupLast l k with
  | none => .ok 0
  | some .null => .ok 0
  | some (.num n) => .ok n
  | some _ => .error ("json: cannot unmarshal value into Go int field " ++ k)

/-- A `[]string` element: `null` leaves the zero value `""`. -/
def asSymbol : Json → Except String String
  | .null => .ok ""
  | .str s => .ok s
  | _ => .error "json: cannot unmarshal value into Go string"

/-- Decoding the untyped `default` field into `interface{}`: an absent key or
a JSON `null` yields the nil interface (`none`); any other value is kept. -/
def decodeDefault : Option Json → Option Json
  | none => none
  | some .null => none
  | some (.bool b) => some (.bool b)
  | some (.num n) => some (.num n)
  | some (.str s) => some (.str s)
  | some (.arr xs) => some (.arr xs)
  | some (.obj l) => some (.obj l)

/-- The element loop for a `[]string` field. -/
def decodeSymbols : List Json → Except String (List String)
  | [] => .ok []
  | j :: rest =>
    match asSymbol j with
    | .error e => .error e
    | .ok s =>
      match decodeSymbols rest with
      | .error e => .error e
      | .ok ss => .ok (s :: ss)

/-- Reading a `[]string` struct field. -/
def getStringList (l : List (String × Json)) (k : String) :
    Except String (List String) :=
  match lookupLast l k with
  | none => .ok []
  | some .null => .ok []
  | some (.arr xs) => decodeSymbols xs
  | some _ =>
    .error ("json: cannot unmarshal value into Go field " ++ k
      ++ " of type []string")

mutual
/-- `Unmarshal`'s dispatch, after the generic parse: a JSON string is wrapped
as a `Primitive` without validation; an array becomes a `Union` of
recursively decoded members; an object is dispatched on its `type` and
`logicalType` string fields (only the six known logical kinds are accepted,
then only the five known complex kinds); anything else is the terminal
"could not unmarshal as Schema" error (the raw-text interpolation of the Go
message is not reproduced at tree level). -/
def UnmarshalJson : Json → Except String Schema
  | .str s => .ok (.primitive s)
  | .arr elems =>
    match unmarshalElems elems with
    | .error e => .error e
    | .ok ms => .ok (.union ms)
  | .obj l =>
    -- Decode just enough to determine the type: the `type` and
    -- `logicalType` string fields of the partially-parsed structType.
    match getString l "type" with
    | .error e => .error e
    | .ok t =>
      match getString l "logicalType" with
      | .error e => .error e
      | .ok lt =>
        if lt ≠ "" then
          match lt with
          | "date" => .ok (.logical .date)
          | "time-millis" => .ok (.logical .timeMillis)
          | "time-micros" => .ok (.logical .timeMicros)
          | "timestamp-millis" => .ok (.logical .timestampMillis)
          | "timestamp-micros" => .ok (.logical .timestampMicros)
          | "duration" => .ok (.logical .duration)
          | _ => .error ("avroschema: unknown logical type " ++ lt)
        else
          match t with
          | "record" => decodeRecord l
          | "enum" => decodeEnum l
          | "array" => decodeArray l
          | "map" => decodeMap l
          | "fixed" => decodeFixed l
          | _ => .error ("avroschema: unknown complex type " ++ t)
  | _ => .error "avroschema: could not unmarshal as Schema"
termination_by j => sizeOf j
decreasing_by all_goals (simp_wf <;> omega)

/-- The member loop of `Union.UnmarshalJSON`: each raw element is decoded
through the full dispatch, the first failure aborting. -/
def unmarshalElems : List Json → Except String (List Schema)
  | [] => .ok []
  | j :: rest =>
    match UnmarshalJson j with
    | .error e => .error e
    | .ok s =>
      match unmarshalElems rest with
      | .error e => .error e
      | .ok ms => .ok (s :: ms)
termination_by l => sizeOf l
decreasing_by all_goals (simp_wf <;> omega)

/-- Default `encoding/json` decoding into `Record` (no custom
`UnmarshalJSON`): `name`/`namespace`/`doc`/`aliases`/`fields` by key, the
unmatched `type` key ignored, absent keys leaving zero values. -/
def decodeRecord (l : List (String × Json)) : Except String Schema :=
  match getString l "name" with
  | .error e => .error e
  | .ok n =>
  match getString l "namespace" with
  | .error e => .error e
  | .ok ns =>
  match getString l "doc" with
  | .error e => .error e
  | .ok d =>
  match getStringList l "aliases" with
  | .error e => .error e
  | .ok al =>
  match h : lookupLast l "fields" with
  | none => .ok (.record n ns d al [])
  | some .null => .ok (.record n ns d al [])
  | some (.arr xs) =>
    match decodeFieldList xs with
    | .error e => .error e
    | .ok fs => .ok (.record n ns d al fs)
  | some _ =>
    .error "json: cannot unmarshal value into Go field Fields"
termination_by sizeOf l
decreasing_by
  simp_wf
  have := sizeOf_lookupLast h
  simp only [Json.arr.sizeOf_spec] at this
  omega

/-- The element loop for `Fields []*Field`. -/
def decodeFieldList : List Json → Except String (List SField)
  | [] => .ok []
  | x :: xs =>
    match fieldUnmarshal x with
    | .error e => .error e
    | .ok f =>
      match decodeFieldList xs with
      | .error e => .error e
      | .ok fs => .ok (f :: fs)
termination_by l => sizeOf l
decreasing_by all_goals (simp_wf <;> omega)

/-- `Field.UnmarshalJSON`: decode the proxy struct
(`name`/`type` raw/`doc`/`default`/`aliases`/`order`), then decode the raw
`type` through `Unmarshal` — an absent `type` key is a nil raw message, which
`Unmarshal` maps to a nil schema (`none`).  A `null` array element would make
`encoding/json` store a nil `*Field` without calling this method (any later
use panics); that input is mapped to an error here and is unreachable in
every property below. -/
def fieldUnmarshal : Json → Except String SField
  | .obj fl =>
    (match getString fl "name" with
    | .error e => .error e
    | .ok n =>
    match getString fl "doc" with
    | .error e => .error e
    | .ok d =>
    match getStringList fl "aliases" with
    | .error e => .error e
    | .ok al =>
    match getString fl "order" with
    | .error e => .error e
    | .ok o =>
    let df : Option Json := decodeDefault (lookupLast fl "default")
    match h : lookupLast fl "type" with
    | none => .ok (.mk n none d df al o)
    | some jt =>
      match UnmarshalJson jt with
      | .error e => .error e
      | .ok t => .ok (.mk n (some t) d df al o))
  | .null => .error "json: nil *Field element"
  | _ => .error "json: cannot unmarshal value into Go value of type Field"
termination_by j => sizeOf j
decreasing_by
  simp_wf
  have := sizeOf_lookupLast h
  omega

/-- `Array.UnmarshalJSON`: capture the raw `items` sub-document and decode it
through `Unmarshal`; an absent key is a nil raw message, decoded to `none`. -/
def decodeArray (l : List (String × Json)) : Except String Schema :=
  match h : lookupLast l "items" with
  | none => .ok (.array none)
  | some j =>
    match UnmarshalJson j with
    | .error e => .error e
    | .ok s => .ok (.array (some s))
termination_by sizeOf l
decreasing_by
  simp_wf
  have := sizeOf_lookupLast h
  omega

/-- `Map.UnmarshalJSON`, identical to `Array` with the `values` key. -/
def decodeMap (l : List (String × Json)) : Except String Schema :=
  match h : lookupLast l "values" with
  | none => .ok (.map none)
  | some j =>
    match UnmarshalJson j with
    | .error e => .error e
    | .ok s => .ok (.map (some s))
termination_by sizeOf l
decreasing_by
  simp_wf
  have := sizeOf_lookupLast h
  omega

/-- Default `encoding/json` decoding into `Enum`. -/
def decodeEnum (l : List (String × Json)) : Except String Schema :=
  match getString l "name" with
  | .error e => .error e
  | .ok n =>
  match getString l "namespace" with
  | .error e => .error e
  | .ok ns =>
  match getString l "doc" with
  | .error e => .error e
  | .ok d =>
  match getStringList l "aliases" with
  | .error e => .error e
  | .ok al =>
  match getStringList l "symbols" with
  | .error e => .error e
  | .ok sy => .ok (.enum n ns d al sy)

/-- Default `encoding/json` decoding into `Fixed`: note that `size` is read
here even though the encoder never writes it, so it is `0` on every decoded
value of the encoder's output. -/
def decodeFixed (l : List (String × Json)) : Except String Schema :=
  match getString l "name" with
  | .error e => .error e
  | .ok n =>
  match getString l "namespace" with
  | .error e => .error e
  | .ok ns =>
  match getInt l "size" with
  | .error e => .error e
  | .ok sz =>
  match getStringList l "aliases" with
  | .error e => .error e
  | .ok al => .ok (.fixed n ns sz al)
end

/-- `unicode.IsSpace` as used by `bytes.TrimSpace`, for the Latin-1 range
(horizontal tab, newline, vertical tab, form feed, carriage return, space,
next line, no-break space); the White_Space table consulted for higher code
points is not modelled, as no property depends on it. -/
def goIsSpace (c : Char) : Bool :=
  c == '\t' || c == '\n' || c == Char.ofNat 11 || c == Char.ofNat 12
    || c == '\r' || c == ' ' || c == Char.ofNat 0x85 || c == Char.ofNat 0xA0

/-- `bytes.TrimSpace`: drop leading and trailing whitespace. -/
def trimSpace (b : List Char) : List Char :=
  ((b.dropWhile goIsSpace).reverse.dropWhile goIsSpace).reverse

/-- `Unmarshal` on raw input characters: trim surrounding whitespace, return
"no schema, no error" on empty input, then dispatch on the first byte —
`"`, `[` and `{` hand the (abstracted) generic JSON parser the text and feed
the parsed tree to the dispatch above; any other leading byte is the terminal
"could not unmarshal" error without consulting the parser. -/
def Unmarshal (parse : List Char → Except String Json) (b : List Char) :
    Except String (Option Schema) :=
  match trimSpace b with
  | [] => .ok none
  | c :: rest =>
    if c = '"' || c = '[' || c = '{' then
      match parse (c :: rest) with
      | .error e => .error e
      | .ok j =>
        match UnmarshalJson j with
        | .error e => .error e
        | .ok s => .ok (some s)
    else
      .error ("avroschema: could not unmarshal " ++ String.mk (c :: rest)
        ++ " as Schema")

/-! ## Well-formedness predicates

`fullySpecified` rules out the values whose encoded form collapses with an
absent attribute: a nil `Field.Type`/`Array.Items`/`Map.Values` (encoded as
JSON `null`) and a `Field.Default` holding a typed-nil that encodes as
`null` (decoding `null` yields the nil interface again).  `decimalFree` and
`fixedFree` say no `Decimal` (resp. `Fixed`) occurs anywhere in the tree. -/

/-- `true` unless the value is a JSON `null` (the encoded form of a typed-nil
default, which decoding maps back to the nil interface). -/
def notNullDefault : Option Json → Bool
  | none => true
  | some .null => false
  | some (.bool _) => true
  | some (.num _) => true
  | some (.str _) => true
  | some (.arr _) => true
  | some (.obj _) => true

mutual
def fullySpecified : Schema → Bool
  | .primitive _ => true
  | .logical _ => true
  | .record _ _ _ _ fs => fieldsFully fs
  | .enum _ _ _ _ _ => true
  | .array i => optFully i
  | .map v => optFully v
  | .union l => listFully l
  | .fixed _ _ _ _ => true
  | .decimal _ _ => true

def optFully : Option Schema → Bool
  | none => false
  | some s => fullySpecified s

def listFully : List Schema → Bool
  | [] => true
  | s :: rest => fullySpecified s && listFully rest

def fieldsFully : List SField → Bool
  | [] => true
  | f :: fs => fieldFully f && fieldsFully fs

def fieldFully : SField → Bool
  | .mk _ t _ df _ _ => notNullDefault df && optFully t
end

mutual
def decimalFree : Schema → Bool
  | .primitive _ => true
  | .logical _ => true
  | .record _ _ _ _ fs => fieldsDecimalFree fs
  | .enum _ _ _ _ _ => true
  | .array i => optDecimalFree i
  | .map v => optDecimalFree v
  | .union l => listDecimalFree l
  | .fixed _ _ _ _ => true
  | .decimal _ _ => false

def optDecimalFree : Option Schema → Bool
  | none => true
  | some s => decimalFree s

def listDecimalFree : List Schema → Bool
  | [] => true
  | s :: rest => decimalFree s && listDecimalFree rest

def fieldsDecimalFree : List SField → Bool
  | [] => true
  | f :: fs => fieldDecimalFree f && fieldsDecimalFree fs

def fieldDecimalFree : SField → Bool
  | .mk _ t _ _ _ _ => optDecimalFree t
end

mutual
def fixedFree : Schema → Bool
  | .primitive _ => true
  | .logical _ => true
  | .record _ _ _ _ fs => fieldsFixedFree fs
  | .enum _ _ _ _ _ => true
  | .array i => optFixedFree i
  | .map v => optFixedFree v
  | .union l => listFixedFree l
  | .fixed _ _ _ _ => false
  | .decimal _ _ => true

def optFixedFree : Option Schema → Bool
  | none => true
  | some s => fixedFree s

def listFixedFree : List Schema → Bool
  | [] => true
  | s :: rest => fixedFree s && listFixedFree rest

def fieldsFixedFree : List SField → Bool
  | [] => true
  | f :: fs => fieldFixedFree f && fieldsFixedFree fs

def fieldFixedFree : SField → Bool
  | .mk _ t _ _ _ _ => optFixedFree t
end

/-! ## Basic lemmas -/

theorem listFully_mem {l : List Schema} (h : listFully l = true) {s : Schema}
    (hm : s ∈ l) : fullySpecified s = true := by
  induction l with
  | nil => cases hm
  | cons a rest ih =>
    rw [listFully, Bool.and_eq_true] at h
    rcases List.mem_cons.mp hm with rfl | hm'
    · exact h.1
    · exact ih h.2 hm'

theorem fieldsFully_mem {fs : List SField} (h : fieldsFully fs = true)
    {f : SField} (hm : f ∈ fs) : fieldFully f = true := by
  induction fs with
  | nil => cases hm
  | cons a rest ih =>
    rw [fieldsFully, Bool.and_eq_true] at h
    rcases List.mem_cons.mp hm with rfl | hm'
    · exact h.1
    · exact ih h.2 hm'

theorem listDecimalFree_mem {l : List Schema} (h : listDecimalFree l = true)
    {s : Schema} (hm : s ∈ l) : decimalFree s = true := by
  induction l with
  | nil => cases hm
  | cons a rest ih =>
    rw [listDecimalFree, Bool.and_eq_true] at h
    rcases List.mem_cons.mp hm with rfl | hm'
    · exact h.1
    · exact ih h.2 hm'

theorem fieldsDecimalFree_mem {fs : List SField}
    (h : fieldsDecimalFree fs = true) {f : SField} (hm : f ∈ fs) :
    fieldDecimalFree f = true := by
  induction fs with
  | nil => cases hm
  | cons a rest ih =>
    rw [fieldsDecimalFree, Bool.and_eq_true] at h
    rcases List.mem_cons.mp hm with rfl | hm'
    · exact h.1
    · exact ih h.2 hm'

theorem listFixedFree_mem {l : List Schema} (h : listFixedFree l = true)
    {s : Schema} (hm : s ∈ l) : fixedFree s = true := by
  induction l with
  | nil => cases hm
  | cons a rest ih =>
    rw [listFixedFree, Bool.and_eq_true] at h
    rcases List.mem_cons.mp hm with rfl | hm'
    · exact h.1
    · exact ih h.2 hm'

theorem fieldsFixedFree_mem {fs : List SField} (h : fieldsFixedFree fs = true)
    {f : SField} (hm : f ∈ fs) : fieldFixedFree f = true := by
  induction fs with
  | nil => cases hm
  | cons a rest ih =>
    rw [fieldsFixedFree, Bool.and_eq_true] at h
    rcases List.mem_cons.mp hm with rfl | hm'
    · exact h.1
    · exact ih h.2 hm'

theorem sizeOf_ftype {n : String} {ft : Option Schema} {d : String}
    {df : Option Json} {al : List String} {o : String} {t : Schema}
    (h : ft = some t) :
    sizeOf t < sizeOf (SField.mk n ft d df al o) := by
  subst h
  simp only [SField.mk.sizeOf_spec, Option.some.sizeOf_spec]
  omega

/-- The element loop of `Union.isEqual` is reflexive when every element is. -/
theorem unionIsEqual_refl {l : List Schema}
    (h : ∀ s ∈ l, Equal s s = true) : unionIsEqual l l = true := by
  induction l with
  | nil => rw [unionIsEqual]
  | cons a rest ih =>
    rw [unionIsEqual, Bool.and_eq_true]
    exact ⟨h a (List.mem_cons_self a rest), ih fun s hs => h s (List.mem_cons_of_mem a hs)⟩

/-- The field loop of `Record.isEqual` is reflexive when every field is. -/
theorem fieldsIsEqual_refl {fs : List SField}
    (h : ∀ f ∈ fs, fieldIsEqual f f = true) : fieldsIsEqual fs fs = true := by
  induction fs with
  | nil => rw [fieldsIsEqual]
  | cons a rest ih =>
    rw [fieldsIsEqual, Bool.and_eq_true]
    exact ⟨h a (List.mem_cons_self a rest), ih fun f hf => h f (List.mem_cons_of_mem a hf)⟩

/-- `Equal(x, x)` holds whenever `x` contains no `Fixed` (where the source's
missing switch case yields `false`) and no nil sub-schema (where the source
would panic). -/
theorem equal_refl_aux :
    ∀ n : Nat, ∀ s : Schema, sizeOf s ≤ n → fullySpecified s = true →
      fixedFree s = true → Equal s s = true := by
  intro n
  induction n with
  | zero =>
    intro s hs _ _
    exfalso
    cases s <;> simp at hs
  | succ n ih =>
    intro s hs hfull hfree
    cases s with
    | primitive p => simp [Equal, typeName, isPrim]
    | logical k => cases k <;> simp [Equal, typeName, LogicalKind.name, isPrim]
    | record nm ns d al fs =>
      rw [fullySpecified] at hfull
      rw [fixedFree] at hfree
      have hrec : ∀ f ∈ fs, fieldIsEqual f f = true := by
        intro f hf
        have h1 := fieldsFully_mem hfull hf
        have h2 := fieldsFixedFree_mem hfree hf
        obtain ⟨fn, ft, fd, fdf, fal, fo⟩ := f
        simp only [fieldFully, Bool.and_eq_true] at h1
        simp only [fieldFixedFree] at h2
        cases ft with
        | none => simp [optFully] at h1
        | some t =>
          have hsz : sizeOf t ≤ n := by
            have h3 := @sizeOf_ftype fn (some t) fd fdf fal fo t rfl
            have h4 := List.sizeOf_lt_of_mem hf
            simp only [Schema.record.sizeOf_spec] at hs
            omega
          have heq := ih t hsz (by simpa [optFully] using h1.2)
            (by simpa [optFixedFree] using h2)
          simp [fieldIsEqual, optEqual, heq]
      rw [Equal]
      simp only [typeName, isPrim]
      have := fieldsIsEqual_refl hrec
      simp [this]
    | enum nm ns d al sy =>
      rw [Equal]
      simp [typeName, isPrim]
    | array i =>
      rw [fullySpecified] at hfull
      rw [fixedFree] at hfree
      cases i with
      | none => simp [optFully] at hfull
      | some a =>
        rw [optFully] at hfull
        rw [optFixedFree] at hfree
        have hsz : sizeOf a ≤ n := by
          simp only [Schema.array.sizeOf_spec, Option.some.sizeOf_spec] at hs
          omega
        have := ih a hsz hfull hfree
        rw [Equal]
        simp [typeName, isPrim, optEqual, this]
    | map v =>
      rw [fullySpecified] at hfull
      rw [fixedFree] at hfree
      cases v with
      | none => simp [optFully] at hfull
      | some a =>
        rw [optFully] at hfull
        rw [optFixedFree] at hfree
        have hsz : sizeOf a ≤ n := by
          simp only [Schema.map.sizeOf_spec, Option.some.sizeOf_spec] at hs
          omega
        have := ih a hsz hfull hfree
        rw [Equal]
        simp [typeName, isPrim, optEqual, this]
    | union l =>
      rw [fullySpecified] at hfull
      rw [fixedFree] at hfree
      have hmem : ∀ s ∈ l, Equal s s = true := by
        intro m hm
        have hsz : sizeOf m ≤ n := by
          have := List.sizeOf_lt_of_mem hm
          simp only [Schema.union.sizeOf_spec] at hs
          omega
        exact ih m hsz (listFully_mem hfull hm) (listFixedFree_mem hfree hm)
      rw [Equal]
      simp [typeName, isPrim, unionIsEqual_refl hmem]
    | fixed nm ns sz al => simp [fixedFree] at hfree
    | decimal p sc =>
      rw [Equal]
      simp [typeName, isPrim]

theorem equal_refl {s : Schema} (hfull : fullySpecified s = true)
    (hfree : fixedFree s = true) : Equal s s = true :=
  equal_refl_aux (sizeOf s) s le_rfl hfull hfree

/-! ## Round-trip lemmas: decoding the encoder's output -/

theorem decodeSymbols_strArr (al : List String) :
    decodeSymbols (al.map Json.str) = .ok al := by
  induction al with
  | nil => rw [List.map_nil, decodeSymbols]
  | cons a as ih =>
    rw [List.map_cons, decodeSymbols]
    simp [asSymbol, ih]

theorem fieldUnmarshal_marshalField (fn : String) (t : Schema) (fd : String)
    (fdf : Option Json) (fal : List String) (fo : String)
    (hdf : notNullDefault fdf = true)
    (hrt : UnmarshalJson (marshalSchema t) = .ok t) :
    fieldUnmarshal (marshalField (.mk fn (some t) fd fdf fal fo)) =
      .ok (.mk fn (some t) fd fdf fal fo) := by
  rw [marshalField.eq_def]
  cases fdf with
  | none =>
    by_cases hd : fd = "" <;> by_cases hal : fal = [] <;> by_cases ho : fo = "" <;>
      simp [hd, hal, ho, fieldUnmarshal, getString, getStringList, lookupLast,
        strArr, decodeSymbols_strArr, marshalOpt, decodeDefault, hrt]
  | some j =>
    cases j <;> simp [notNullDefault] at hdf <;>
      by_cases hd : fd = "" <;> by_cases hal : fal = [] <;> by_cases ho : fo = "" <;>
      simp [hd, hal, ho, fieldUnmarshal, getString, getStringList, lookupLast,
        strArr, decodeSymbols_strArr, marshalOpt, decodeDefault, hrt]

theorem decodeFieldList_marshalFields (fs : List SField)
    (h : ∀ f ∈ fs, fieldUnmarshal (marshalField f) = .ok f) :
    decodeFieldList (marshalFields fs) = .ok fs := by
  induction fs with
  | nil => rw [marshalFields, decodeFieldList]
  | cons f rest ih =>
    rw [marshalFields, decodeFieldList]
    simp [h f (List.mem_cons_self f rest),
      ih fun g hg => h g (List.mem_cons_of_mem f hg)]

theorem unmarshalElems_marshalList (l : List Schema)
    (h : ∀ m ∈ l, UnmarshalJson (marshalSchema m) = .ok m) :
    unmarshalElems (marshalList l) = .ok l := by
  induction l with
  | nil => rw [marshalList, unmarshalElems]
  | cons a rest ih =>
    rw [marshalList, unmarshalElems]
    simp [h a (List.mem_cons_self a rest),
      ih fun m hm => h m (List.mem_cons_of_mem a hm)]

theorem unmarshal_marshal_record (nm ns d : String) (al : List String)
    (fs : List SField)
    (hfs : decodeFieldList (marshalFields fs) = .ok fs) :
    UnmarshalJson (marshalSchema (.record nm ns d al fs)) =
      .ok (.record nm ns d al fs) := by
  rw [marshalSchema]
  by_cases hal : al = [] <;> by_cases hd : d = "" <;> by_cases hns : ns = "" <;>
    simp [hal, hd, hns, UnmarshalJson, decodeRecord, getString, getStringList,
      lookupLast, strArr, decodeSymbols_strArr, hfs]

theorem unmarshal_marshal_enum (nm ns d : String) (al sy : List String) :
    UnmarshalJson (marshalSchema (.enum nm ns d al sy)) =
      .ok (.enum nm ns d al sy) := by
  rw [marshalSchema]
  by_cases hal : al = [] <;> by_cases hd : d = "" <;> by_cases hns : ns = "" <;>
    simp [hal, hd, hns, UnmarshalJson, decodeEnum, getString, getStringList,
      lookupLast, strArr, decodeSymbols_strArr]

theorem unmarshal_marshal_array (a : Schema)
    (hrt : UnmarshalJson (marshalSchema a) = .ok a) :
    UnmarshalJson (marshalSchema (.array (some a))) =
      .ok (.array (some a)) := by
  rw [marshalSchema]
  simp [UnmarshalJson, decodeArray, getString, lookupLast, marshalOpt, hrt]

theorem unmarshal_marshal_map (v : Schema)
    (hrt : UnmarshalJson (marshalSchema v) = .ok v) :
    UnmarshalJson (marshalSchema (.map (some v))) =
      .ok (.map (some v)) := by
  rw [marshalSchema]
  simp [UnmarshalJson, decodeMap, getString, lookupLast, marshalOpt, hrt]

/-- Round-trip at the tree level, by strong induction on the schema size:
for a fully-specified schema with no `Decimal` and no `Fixed` anywhere,
decoding the encoded form recovers the schema exactly. -/
theorem roundtrip_aux :
    ∀ n : Nat, ∀ s : Schema, sizeOf s ≤ n → fullySpecified s = true →
      decimalFree s = true → fixedFree s = true →
      UnmarshalJson (marshalSchema s) = .ok s := by
  intro n
  induction n with
  | zero =>
    intro s hs _ _ _
    exfalso
    cases s <;> simp at hs
  | succ n ih =>
    intro s hs hfull hdec hfree
    cases s with
    | primitive p => rw [marshalSchema, UnmarshalJson]
    | logical k =>
      cases k <;> simp [marshalSchema, UnmarshalJson, getString, lookupLast]
    | record nm ns d al fs =>
      simp only [fullySpecified] at hfull
      simp only [decimalFree] at hdec
      simp only [fixedFree] at hfree
      refine unmarshal_marshal_record nm ns d al fs
        (decodeFieldList_marshalFields fs ?_)
      intro f hf
      have h1 := fieldsFully_mem hfull hf
      have h2 := fieldsDecimalFree_mem hdec hf
      have h3 := fieldsFixedFree_mem hfree hf
      obtain ⟨fn, ft, fd, fdf, fal, fo⟩ := f
      simp only [fieldFully, Bool.and_eq_true] at h1
      simp only [fieldDecimalFree] at h2
      simp only [fieldFixedFree] at h3
      cases ft with
      | none => simp [optFully] at h1
      | some t =>
        have hsz : sizeOf t ≤ n := by
          have h4 := @sizeOf_ftype fn (some t) fd fdf fal fo t rfl
          have h5 := List.sizeOf_lt_of_mem hf
          simp only [Schema.record.sizeOf_spec] at hs
          omega
        exact fieldUnmarshal_marshalField fn t fd fdf fal fo h1.1
          (ih t hsz (by simpa [optFully] using h1.2)
            (by simpa [optDecimalFree] using h2)
            (by simpa [optFixedFree] using h3))
    | enum nm ns d al sy => exact unmarshal_marshal_enum nm ns d al sy
    | array i =>
      simp only [fullySpecified] at hfull
      simp only [decimalFree] at hdec
      simp only [fixedFree] at hfree
      cases i with
      | none => simp [optFully] at hfull
      | some a =>
        have hsz : sizeOf a ≤ n := by
          simp only [Schema.array.sizeOf_spec, Option.some.sizeOf_spec] at hs
          omega
        exact unmarshal_marshal_array a
          (ih a hsz (by simpa [optFully] using hfull)
            (by simpa [optDecimalFree] using hdec)
            (by simpa [optFixedFree] using hfree))
    | map v =>
      simp only [fullySpecified] at hfull
      simp only [decimalFree] at hdec
      simp only [fixedFree] at hfree
      cases v with
      | none => simp [optFully] at hfull
      | some a =>
        have hsz : sizeOf a ≤ n := by
          simp only [Schema.map.sizeOf_spec, Option.some.sizeOf_spec] at hs
          omega
        exact unmarshal_marshal_map a
          (ih a hsz (by simpa [optFully] using hfull)
            (by simpa [optDecimalFree] using hdec)
            (by simpa [optFixedFree] using hfree))
    | union l =>
      simp only [fullySpecified] at hfull
      simp only [decimalFree] at hdec
      simp only [fixedFree] at hfree
      rw [marshalSchema, UnmarshalJson]
      have hallm : unmarshalElems (marshalList l) = .ok l := by
        refine unmarshalElems_marshalList l ?_
        intro m hm
        have hsz : sizeOf m ≤ n := by
          have := List.sizeOf_lt_of_mem hm
          simp only [Schema.union.sizeOf_spec] at hs
          omega
        exact ih m hsz (listFully_mem hfull hm)
          (listDecimalFree_mem hdec hm) (listFixedFree_mem hfree hm)
      simp [hallm]
    | fixed nm ns sz al => simp [fixedFree] at hfree
    | decimal p sc => simp [decimalFree] at hdec

theorem roundtrip_exact {s : Schema} (hfull : fullySpecified s = true)
    (hdec : decimalFree s = true) (hfree : fixedFree s = true) :
    UnmarshalJson (marshalSchema s) = .ok s :=
  roundtrip_aux (sizeOf s) s le_rfl hfull hdec hfree

/-! ## Inversion lemmas: what shapes the decoder can produce -/

theorem listDecimalFree_of {l : List Schema}
    (h : ∀ s ∈ l, decimalFree s = true) : listDecimalFree l = true := by
  induction l with
  | nil => rw [listDecimalFree]
  | cons a rest ih =>
    rw [listDecimalFree, Bool.and_eq_true]
    exact ⟨h a (List.mem_cons_self a rest),
      ih fun s hs => h s (List.mem_cons_of_mem a hs)⟩

theorem fieldsDecimalFree_of {fs : List SField}
    (h : ∀ f ∈ fs, fieldDecimalFree f = true) : fieldsDecimalFree fs = true := by
  induction fs with
  | nil => rw [fieldsDecimalFree]
  | cons a rest ih =>
    rw [fieldsDecimalFree, Bool.and_eq_true]
    exact ⟨h a (List.mem_cons_self a rest),
      ih fun f hf => h f (List.mem_cons_of_mem a hf)⟩

theorem unmarshalElems_mem :
    ∀ {es : List Json} {ms : List Schema}, unmarshalElems es = .ok ms →
      ∀ {m : Schema}, m ∈ ms → ∃ j ∈ es, UnmarshalJson j = .ok m := by
  intro es
  induction es with
  | nil =>
    intro ms h m hm
    rw [unmarshalElems] at h
    cases h
    cases hm
  | cons j rest ih =>
    intro ms h m hm
    rw [unmarshalElems] at h
    split at h
    · cases h
    · split at h
      · cases h
      · cases h
        rcases List.mem_cons.mp hm with rfl | hm'
        · exact ⟨j, List.mem_cons_self j rest, by assumption⟩
        · obtain ⟨j', hj', hdec⟩ := ih (by assumption) hm'
          exact ⟨j', List.mem_cons_of_mem j hj', hdec⟩

theorem decodeFieldList_mem :
    ∀ {xs : List Json} {fs : List SField}, decodeFieldList xs = .ok fs →
      ∀ {f : SField}, f ∈ fs → ∃ x ∈ xs, fieldUnmarshal x = .ok f := by
  intro xs
  induction xs with
  | nil =>
    intro fs h f hf
    rw [decodeFieldList] at h
    cases h
    cases hf
  | cons x rest ih =>
    intro fs h f hf
    rw [decodeFieldList] at h
    split at h
    · cases h
    · split at h
      · cases h
      · cases h
        rcases List.mem_cons.mp hf with rfl | hf'
        · exact ⟨x, List.mem_cons_self x rest, by assumption⟩
        · obtain ⟨x', hx', hdec⟩ := ih (by assumption) hf'
          exact ⟨x', List.mem_cons_of_mem x hx', hdec⟩

theorem fieldUnmarshal_inv {x : Json} {f : SField}
    (h : fieldUnmarshal x = .ok f) :
    f.ftype = none ∨ ∃ jt t, sizeOf jt < sizeOf x ∧
      UnmarshalJson jt = .ok t ∧ f.ftype = some t := by
  cases x with
  | null => simp [fieldUnmarshal] at h
  | bool b => simp [fieldUnmarshal] at h
  | num m => simp [fieldUnmarshal] at h
  | str s2 => simp [fieldUnmarshal] at h
  | arr es => simp [fieldUnmarshal] at h
  | obj fl =>
    rw [fieldUnmarshal] at h
    split at h
    · cases h
    · split at h
      · cases h
      · split at h
        · cases h
        · split at h
          · cases h
          · split at h
            · cases h
              left
              rfl
            · split at h
              · cases h
              · cases h
                right
                refine ⟨_, _, ?_, by assumption, rfl⟩
                have := sizeOf_lookupLast (show lookupLast fl "type" = some _ by assumption)
                simp only [Json.obj.sizeOf_spec]
                omega

theorem decodeRecord_inv {l : List (String × Json)} {s : Schema}
    (h : decodeRecord l = .ok s) :
    ∃ nm ns d al fs, s = .record nm ns d al fs ∧
      (fs = [] ∨ ∃ xs, lookupLast l "fields" = some (.arr xs) ∧
        decodeFieldList xs = .ok fs) := by
  rw [decodeRecord] at h
  split at h
  · cases h
  · split at h
    · cases h
    · split at h
      · cases h
      · split at h
        · cases h
        · split at h
          · cases h
            exact ⟨_, _, _, _, _, rfl, Or.inl rfl⟩
          · cases h
            exact ⟨_, _, _, _, _, rfl, Or.inl rfl⟩
          · split at h
            · cases h
            · cases h
              exact ⟨_, _, _, _, _, rfl, Or.inr ⟨_, by assumption, by assumption⟩⟩
          · cases h

theorem decodeEnum_inv {l : List (String × Json)} {s : Schema}
    (h : decodeEnum l = .ok s) :
    ∃ nm ns d al sy, s = .enum nm ns d al sy := by
  rw [decodeEnum] at h
  split at h
  · cases h
  · split at h
    · cases h
    · split at h
      · cases h
      · split at h
        · cases h
        · split at h
          · cases h
          · cases h
            exact ⟨_, _, _, _, _, rfl⟩

theorem decodeFixed_inv {l : List (String × Json)} {s : Schema}
    (h : decodeFixed l = .ok s) :
    ∃ nm ns sz al, s = .fixed nm ns sz al := by
  rw [decodeFixed] at h
  split at h
  · cases h
  · split at h
    · cases h
    · split at h
      · cases h
      · split at h
        · cases h
        · cases h
          exact ⟨_, _, _, _, rfl⟩

theorem decodeArray_inv {l : List (String × Json)} {s : Schema}
    (h : decodeArray l = .ok s) :
    s = .array none ∨ ∃ j a, lookupLast l "items" = some j ∧
      UnmarshalJson j = .ok a ∧ s = .array (some a) := by
  rw [decodeArray] at h
  split at h
  · cases h
    exact Or.inl rfl
  · split at h
    · cases h
    · cases h
      exact Or.inr ⟨_, _, by assumption, by assumption, rfl⟩

theorem decodeMap_inv {l : List (String × Json)} {s : Schema}
    (h : decodeMap l = .ok s) :
    s = .map none ∨ ∃ j a, lookupLast l "values" = some j ∧
      UnmarshalJson j = .ok a ∧ s = .map (some a) := by
  rw [decodeMap] at h
  split at h
  · cases h
    exact Or.inl rfl
  · split at h
    · cases h
    · cases h
      exact Or.inr ⟨_, _, by assumption, by assumption, rfl⟩

/-- The decoder never constructs a `Decimal` anywhere in its result, by
strong induction on the input size: no dispatch branch produces one. -/
theorem unmarshal_decimalFree_aux :
    ∀ n : Nat, ∀ j : Json, sizeOf j ≤ n → ∀ s : Schema,
      UnmarshalJson j = .ok s → decimalFree s = true := by
  intro n
  induction n with
  | zero =>
    intro j hj _ _
    exfalso
    cases j <;> simp at hj
  | succ n ih =>
    intro j hj s h
    cases j with
    | null => simp [UnmarshalJson] at h
    | bool b => simp [UnmarshalJson] at h
    | num m => simp [UnmarshalJson] at h
    | str p =>
      rw [UnmarshalJson] at h
      cases h
      rw [decimalFree]
    | arr elems =>
      rw [UnmarshalJson] at h
      split at h
      · cases h
      · cases h
        rename_i ms hms
        rw [decimalFree]
        refine listDecimalFree_of ?_
        intro m hm
        obtain ⟨je, hje, hdce⟩ := unmarshalElems_mem hms hm
        have hsz : sizeOf je ≤ n := by
          have := List.sizeOf_lt_of_mem hje
          simp only [Json.arr.sizeOf_spec] at hj
          omega
        exact ih je hsz m hdce
    | obj l =>
      have hl : sizeOf l ≤ n := by
        simp only [Json.obj.sizeOf_spec] at hj
        omega
      rw [UnmarshalJson] at h
      split at h
      · cases h
      · split at h
        · cases h
        · split at h
          -- logicalType branch: the six singleton results, or an error
          · split at h <;> cases h <;> rw [decimalFree]
          -- complex-type branch
          · split at h
            · -- record
              obtain ⟨nm, ns, d, al, fs, rfl, hfs⟩ := decodeRecord_inv h
              rw [decimalFree]
              rcases hfs with rfl | ⟨xs, hxs, hdecfs⟩
              · rw [fieldsDecimalFree]
              · refine fieldsDecimalFree_of ?_
                intro f hf
                obtain ⟨x, hx, hfu⟩ := decodeFieldList_mem hdecfs hf
                obtain ⟨fn, ft, fd, fdf, fal, fo⟩ := f
                rcases fieldUnmarshal_inv hfu with hnone | ⟨jt, t, hszt, hdct, hsome⟩
                · simp only [SField.ftype] at hnone
                  subst hnone
                  simp [fieldDecimalFree, optDecimalFree]
                · simp only [SField.ftype] at hsome
                  subst hsome
                  have hsz : sizeOf jt ≤ n := by
                    have h5 := List.sizeOf_lt_of_mem hx
                    have h6 := sizeOf_lookupLast hxs
                    simp only [Json.arr.sizeOf_spec] at h6
                    omega
                  have := ih jt hsz t hdct
                  simp [fieldDecimalFree, optDecimalFree, this]
            · -- enum
              obtain ⟨nm, ns, d, al, sy, rfl⟩ := decodeEnum_inv h
              rw [decimalFree]
            · -- array
              rcases decodeArray_inv h with rfl | ⟨ji, a, hji, hdca, rfl⟩
              · simp [decimalFree, optDecimalFree]
              · have hsz : sizeOf ji ≤ n := by
                  have := sizeOf_lookupLast hji
                  omega
                have := ih ji hsz a hdca
                simp [decimalFree, optDecimalFree, this]
            · -- map
              rcases decodeMap_inv h with rfl | ⟨jv, a, hjv, hdca, rfl⟩
              · simp [decimalFree, optDecimalFree]
              · have hsz : sizeOf jv ≤ n := by
                  have := sizeOf_lookupLast hjv
                  omega
                have := ih jv hsz a hdca
                simp [decimalFree, optDecimalFree, this]
            · -- fixed
              obtain ⟨nm, ns, sz, al, rfl⟩ := decodeFixed_inv h
              rw [decimalFree]
            · cases h

theorem unmarshal_decimalFree {j : Json} {s : Schema}
    (h : UnmarshalJson j = .ok s) : decimalFree s = true :=
  unmarshal_decimalFree_aux (sizeOf j) j le_rfl s h

/-! ## Variant classification and `Equal` case lemmas -/

/-- A tag for the variant (constructor) of a schema value; the six logical
singletons share one tag, following the data model's single LogicalSingleton
variant with a kind. -/
def variantTag : Schema → Nat
  | .primitive _ => 0
  | .logical _ => 1
  | .record _ _ _ _ _ => 2
  | .enum _ _ _ _ _ => 3
  | .array _ => 4
  | .map _ => 5
  | .union _ => 6
  | .fixed _ _ _ _ => 7
  | .decimal _ _ => 8

/-- Two schema values belong to the same variant of the sum type. -/
def sameVariant (a b : Schema) : Bool := variantTag a == variantTag b

def isLogical : Schema → Bool
  | .logical _ => true
  | _ => false

def isUnion : Schema → Bool
  | .union _ => true
  | _ => false

/-- `x` is a `Primitive` whose name string is `n`. -/
def isPrimNamed : Schema → String → Bool
  | .primitive p, n => p == n
  | _, _ => false

/-- With a `Primitive` on the left, `Equal` reduces to comparing the
primitive's name string against the other side's type-name: the early
`return true` fires as soon as the type-names agree. -/
theorem equal_primitive_left (p : String) (b : Schema) :
    Equal (.primitive p) b = (p == typeName b) := by
  by_cases h : p = typeName b <;>
    simp [Equal, typeName, isPrim, h] <;> rfl

/-- With a logical singleton on the left and a `Primitive` on the right,
`Equal` reduces to comparing the primitive's name against the kind string. -/
theorem equal_logical_primitive (k : LogicalKind) (q : String) :
    Equal (.logical k) (.primitive q) = (q == k.name) := by
  by_cases h : q = k.name
  · subst h
    cases k <;> simp [Equal, typeName, isPrim, LogicalKind.name]
  · have h2 : k.name ≠ q := fun hh => h hh.symm
    cases k <;> simp_all [Equal, typeName, isPrim, LogicalKind.name]

/-- With a logical singleton on the left and anything that is neither a
`Primitive` nor a logical singleton on the right, `Equal` is false: the
type-names can never collide. -/
theorem equal_logical_other (k : LogicalKind) (b : Schema)
    (hp : isPrim b = false) (hl : isLogical b = false) :
    Equal (.logical k) b = false := by
  cases b <;> simp [isPrim] at hp <;> simp [isLogical] at hl <;>
    cases k <;> simp [Equal, typeName, LogicalKind.name, isPrim]

/-- With a composite (non-`Primitive`, non-logical) schema on the left and a
value of any other variant on the right, `Equal` is false: each `isEqual`
method rejects the foreign variant (and `Fixed` is not dispatched at all). -/
theorem equal_comp_left {a b : Schema} (hp : isPrim a = false)
    (hl : isLogical a = false) (hv : sameVariant a b = false) :
    Equal a b = false := by
  cases a <;> simp [isPrim] at hp <;> simp [isLogical] at hl <;>
    cases b <;> simp_all [sameVariant, variantTag, Equal, typeName, isPrim] <;>
    split_ifs <;> simp_all

/-! ## `Union.Contains` and `Union.isEqual` characterizations -/

theorem unionContains_iff (l : List Schema) (t : Schema) :
    unionContains l t = true ↔ ∃ x ∈ l, Equal x t = true := by
  induction l with
  | nil => simp [unionContains]
  | cons a rest ih =>
    rw [unionContains]
    by_cases hA : Equal a t = true
    · rw [if_pos hA]
      simp only [true_iff]
      exact ⟨a, List.mem_cons_self a rest, hA⟩
    · rw [if_neg hA, ih]
      constructor
      · rintro ⟨x, hx, he⟩
        exact ⟨x, List.mem_cons_of_mem a hx, he⟩
      · rintro ⟨x, hx, he⟩
        rcases List.mem_cons.mp hx with rfl | hx'
        · exact absurd he hA
        · exact ⟨x, hx', he⟩

theorem unionContains_false {l : List Schema} {t : Schema}
    (h : ∀ m ∈ l, Equal m t = false) : unionContains l t = false := by
  induction l with
  | nil => rw [unionContains]
  | cons a rest ih =>
    rw [unionContains, if_neg]
    · exact ih fun m hm => h m (List.mem_cons_of_mem a hm)
    · simp [h a (List.mem_cons_self a rest)]

theorem unionIsEqual_get :
    ∀ l1 l2 : List Schema, l1.length = l2.length →
      (unionIsEqual l1 l2 = true ↔
        ∀ (i : Nat) (h1 : i < l1.length) (h2 : i < l2.length),
          Equal (l1.get ⟨i, h1⟩) (l2.get ⟨i, h2⟩) = true) := by
  intro l1
  induction l1 with
  | nil =>
    intro l2 h
    cases l2 with
    | nil => simp [unionIsEqual]
    | cons b bs => simp at h
  | cons a as ih =>
    intro l2 h
    cases l2 with
    | nil => simp at h
    | cons b bs =>
      simp only [List.length_cons, Nat.add_right_cancel_iff] at h
      rw [unionIsEqual, Bool.and_eq_true, ih bs h]
      constructor
      · rintro ⟨hab, hrest⟩ i h1 h2
        cases i with
        | zero => simpa using hab
        | succ m =>
          simpa using hrest m (by simpa using h1) (by simpa using h2)
      · intro hall
        refine ⟨by simpa using hall 0 (by simp) (by simp), ?_⟩
        intro i h1 h2
        simpa using hall (i + 1) (by simpa using h1) (by simpa using h2)

/-! ## Claim theorems -/

/-- Claim C1, counterexample: decoding the encoding of `Decimal(9, 2)` fails
with the unknown-logical-type error instead of succeeding, and decoding the
encoding of a `Fixed` of size 4 succeeds but loses the size (the encoder
never emits it), yielding a value that is not `Equal` to the original — so
round-tripping does not extend to `Decimal` and `Fixed` values. -/
theorem roundtrip_decimal_fixed_counterexample :
    UnmarshalJson (marshalSchema (.decimal 9 2))
      = .error "avroschema: unknown logical type decimal"
    ∧ UnmarshalJson (marshalSchema (.fixed "F" "" 4 []))
      = .ok (.fixed "F" "" 0 [])
    ∧ Equal (.fixed "F" "" 4 []) (.fixed "F" "" 0 []) = false := by
  refine ⟨?_, ?_, ?_⟩ <;>
    simp [marshalSchema, UnmarshalJson, decodeFixed, getString, getInt,
      getStringList, lookupLast, Equal, typeName, isPrim]

/-- Claim C1 (amended): for every constructible `Schema` value that uses only
fully-specified optional fields and contains no `Decimal` and no `Fixed`
anywhere, decoding the result of encoding it succeeds and yields a `Schema`
value that is `Equal` to the original. -/
theorem roundtrip_equal_amended (s : Schema)
    (hfull : fullySpecified s = true) (hdec : decimalFree s = true)
    (hfree : fixedFree s = true) :
    ∃ t : Schema, UnmarshalJson (marshalSchema s) = Except.ok t
      ∧ Equal s t = true :=
  ⟨s, roundtrip_exact hfull hdec hfree, equal_refl hfull hfree⟩

/-- Witness for C1 (amended) at the README's participant-style record. -/
theorem roundtrip_equal_amended_witness :
    ∃ t : Schema,
      UnmarshalJson (marshalSchema (.record "participant" "" "" []
        [.mk "id" (some (.primitive "string")) "" none [] "",
         .mk "sex" (some (.union [.primitive "null",
           .enum "sex" "" "" [] ["Male", "Female", "Unknown"]])) "" none [] ""]))
        = Except.ok t
      ∧ Equal (.record "participant" "" "" []
        [.mk "id" (some (.primitive "string")) "" none [] "",
         .mk "sex" (some (.union [.primitive "null",
           .enum "sex" "" "" [] ["Male", "Female", "Unknown"]])) "" none [] ""])
        t = true :=
  roundtrip_equal_amended _
    (by simp [fullySpecified, fieldsFully, fieldFully, optFully, listFully,
      notNullDefault])
    (by simp [decimalFree, fieldsDecimalFree, fieldDecimalFree, optDecimalFree,
      listDecimalFree])
    (by simp [fixedFree, fieldsFixedFree, fieldFixedFree, optFixedFree,
      listFixedFree])

/-- Claim C2 is violated by the code: `Equal` is not reflexive — the type
switch in `Equal` omits the `*Fixed` case (its `isEqual` method is dead
code), so `Equal(x, x)` is `false` for `x = Fixed(name: "f")` — and `Equal`
is not symmetric — `Equal(Primitive("record"), record)` is `true` via the
early primitive return, while the reversed call is `false`. -/
theorem equal_reflexivity_symmetry_bug_eval :
    Equal (.fixed "f" "" 0 []) (.fixed "f" "" 0 []) = false
    ∧ Equal (.primitive "record") (.record "r" "" "" [] []) = true
    ∧ Equal (.record "r" "" "" [] []) (.primitive "record") = false := by
  refine ⟨?_, ?_, ?_⟩ <;> simp [Equal, typeName, isPrim]

/-- Claim C3, counterexample: `Primitive("record")` and a `Record` are
different variants, yet `Equal` returns `true` on them — the early
`return true` fires for any `Primitive` left argument whose name string
matches the right argument's type-name. -/
theorem equal_cross_variant_counterexample :
    sameVariant (.primitive "record") (.record "r" "" "" [] []) = false
    ∧ Equal (.primitive "record") (.record "r" "" "" [] []) = true := by
  constructor
  · rfl
  · simp [Equal, typeName, isPrim]

/-- Claim C3 (amended): for schema values of different variants, `Equal`
returns `false` except in exactly two situations, where it returns `true`:
when the left argument is a `Primitive` whose name equals the right
argument's type-name, and when the left argument is a logical singleton and
the right argument is a `Primitive` whose name equals its kind string. -/
theorem equal_cross_variant_amended (a b : Schema)
    (hv : sameVariant a b = false) :
    Equal a b = (isPrimNamed a (typeName b)
      || (isLogical a && isPrimNamed b (typeName a))) := by
  cases a with
  | primitive p => simp [equal_primitive_left, isPrimNamed, isLogical]
  | logical k =>
    cases b with
    | primitive q =>
      simp [equal_logical_primitive, isPrimNamed, isLogical, typeName]
    | logical k2 => simp [sameVariant, variantTag] at hv
    | record nm ns d al fs =>
      rw [equal_logical_other k _ (by simp [isPrim]) (by simp [isLogical])]
      simp [isPrimNamed, isLogical]
    | enum nm ns d al sy =>
      rw [equal_logical_other k _ (by simp [isPrim]) (by simp [isLogical])]
      simp [isPrimNamed, isLogical]
    | array i =>
      rw [equal_logical_other k _ (by simp [isPrim]) (by simp [isLogical])]
      simp [isPrimNamed, isLogical]
    | map v =>
      rw [equal_logical_other k _ (by simp [isPrim]) (by simp [isLogical])]
      simp [isPrimNamed, isLogical]
    | union l =>
      rw [equal_logical_other k _ (by simp [isPrim]) (by simp [isLogical])]
      simp [isPrimNamed, isLogical]
    | fixed nm ns sz al =>
      rw [equal_logical_other k _ (by simp [isPrim]) (by simp [isLogical])]
      simp [isPrimNamed, isLogical]
    | decimal pr sc =>
      rw [equal_logical_other k _ (by simp [isPrim]) (by simp [isLogical])]
      simp [isPrimNamed, isLogical]
  | record nm ns d al fs =>
    rw [equal_comp_left (by simp [isPrim]) (by simp [isLogical]) hv]
    simp [isPrimNamed, isLogical]
  | enum nm ns d al sy =>
    rw [equal_comp_left (by simp [isPrim]) (by simp [isLogical]) hv]
    simp [isPrimNamed, isLogical]
  | array i =>
    rw [equal_comp_left (by simp [isPrim]) (by simp [isLogical]) hv]
    simp [isPrimNamed, isLogical]
  | map v =>
    rw [equal_comp_left (by simp [isPrim]) (by simp [isLogical]) hv]
    simp [isPrimNamed, isLogical]
  | union l =>
    rw [equal_comp_left (by simp [isPrim]) (by simp [isLogical]) hv]
    simp [isPrimNamed, isLogical]
  | fixed nm ns sz al =>
    rw [equal_comp_left (by simp [isPrim]) (by simp [isLogical]) hv]
    simp [isPrimNamed, isLogical]
  | decimal pr sc =>
    rw [equal_comp_left (by simp [isPrim]) (by simp [isLogical]) hv]
    simp [isPrimNamed, isLogical]

/-- Witness for C3 (amended) at a logical/primitive cross-variant pair. -/
theorem equal_cross_variant_amended_witness :
    Equal (.logical .date) (.primitive "date")
      = (isPrimNamed (.logical .date) (typeName (.primitive "date"))
        || (isLogical (.logical .date)
          && isPrimNamed (.primitive "date") (typeName (.logical .date)))) :=
  equal_cross_variant_amended _ _ (by rfl)

/-- Claim C4: decoding an object whose `logicalType` field is present and
non-empty with any value other than the six known kinds yields the
unknown-logical-type error and no schema (provided the object's `type` field
itself reads back as a string); in particular the `nanosecond` input fails
this way, as does the exact object the encoder emits for any `Decimal`; and
no successful decode ever yields a `Decimal` anywhere in its result. -/
theorem unknown_logical_type_spec :
    (∀ (l : List (String × Json)) (lt : String),
        lookupLast l "logicalType" = some (.str lt) → lt ≠ "" →
        lt ≠ "date" → lt ≠ "time-millis" → lt ≠ "time-micros" →
        lt ≠ "timestamp-millis" → lt ≠ "timestamp-micros" → lt ≠ "duration" →
        (∃ t, getString l "type" = .ok t) →
        UnmarshalJson (.obj l)
          = .error ("avroschema: unknown logical type " ++ lt))
    ∧ UnmarshalJson (.obj [("type", .str "int"),
        ("logicalType", .str "nanosecond")])
      = .error "avroschema: unknown logical type nanosecond"
    ∧ (∀ p sc : Int, UnmarshalJson (marshalSchema (.decimal p sc))
        = .error "avroschema: unknown logical type decimal")
    ∧ (∀ (j : Json) (s : Schema), UnmarshalJson j = .ok s →
        decimalFree s = true) := by
  refine ⟨?_, ?_, ?_, ?_⟩
  · intro l lt hlk hne h1 h2 h3 h4 h5 h6 ht
    obtain ⟨t, ht⟩ := ht
    have hglt : getString l "logicalType" = .ok lt := by rw [getString, hlk]
    rw [UnmarshalJson, ht, hglt]
    simp only [ne_eq, hne, not_false_eq_true, if_pos]
  · simp [UnmarshalJson, getString, lookupLast]
  · intro p sc
    simp [marshalSchema, UnmarshalJson, getString, lookupLast]
  · exact fun j s h => unmarshal_decimalFree h

/-- Witness for C4 at a one-key object with an unknown logical type. -/
theorem unknown_logical_type_spec_witness :
    UnmarshalJson (.obj [("logicalType", .str "nanosec")])
      = .error "avroschema: unknown logical type nanosec" :=
  unknown_logical_type_spec.1 [("logicalType", .str "nanosec")] "nanosec"
    (by rfl) (by decide) (by decide) (by decide) (by decide) (by decide)
    (by decide) (by decide) ⟨"", by rfl⟩

/-- Claim C5: `Equal` on two `Union`s is positional — it is `true` exactly
when the member lists have the same length and are pairwise `Equal` at each
index; in particular swapping the two members of a two-element union breaks
equality whenever the members are not `Equal`. -/
theorem union_equal_positional :
    (∀ l1 l2 : List Schema,
      Equal (.union l1) (.union l2) = true ↔
        (l1.length = l2.length ∧
          ∀ (i : Nat) (h1 : i < l1.length) (h2 : i < l2.length),
            Equal (l1.get ⟨i, h1⟩) (l2.get ⟨i, h2⟩) = true))
    ∧ (∀ A B : Schema, Equal A B = false →
        Equal (.union [A, B]) (.union [B, A]) = false) := by
  constructor
  · intro l1 l2
    constructor
    · intro h
      have hlen : l1.length = l2.length := by
        by_contra hne
        simp [Equal, typeName, isPrim, hne] at h
      exact ⟨hlen, (unionIsEqual_get l1 l2 hlen).mp
        (by simpa [Equal, typeName, isPrim, hlen] using h)⟩
    · rintro ⟨hlen, hall⟩
      simp [Equal, typeName, isPrim, hlen,
        (unionIsEqual_get l1 l2 hlen).mpr hall]
  · intro A B hAB
    simp [Equal, typeName, isPrim, unionIsEqual, hAB]

/-- Witness for C5 at the swapped two-element union of distinct primitives. -/
theorem union_equal_positional_witness :
    Equal (.union [.primitive "null", .primitive "string"])
      (.union [.primitive "string", .primitive "null"]) = false :=
  union_equal_positional.2 _ _ (by simp [Equal, typeName, isPrim])

/-- Claim C6: when the container is a `Union`, `Contains` is `true` exactly
when the member argument is `Equal` to some member of the union, at any
position; when the container is not a `Union`, `Contains` is exactly
`Equal`. -/
theorem contains_spec :
    (∀ (l : List Schema) (m : Schema),
      Contains (.union l) m = true ↔ ∃ x ∈ l, Equal x m = true)
    ∧ (∀ s m : Schema, isUnion s = false → Contains s m = Equal s m) := by
  constructor
  · intro l m
    rw [Contains]
    exact unionContains_iff l m
  · intro s m hs
    cases s with
    | union l => simp [isUnion] at hs
    | primitive p => simp [Contains]
    | logical k => simp [Contains]
    | record nm ns d al fs => simp [Contains]
    | enum nm ns d al sy => simp [Contains]
    | array i => simp [Contains]
    | map v => simp [Contains]
    | fixed nm ns sz al => simp [Contains]
    | decimal pr sc => simp [Contains]

/-- Witness for C6: membership in a union independent of position, and the
non-union fallback. -/
theorem contains_spec_witness :
    Contains (.union [.primitive "null", .primitive "string"])
      (.primitive "string") = true
    ∧ Contains (.primitive "int") (.primitive "int")
      = Equal (.primitive "int") (.primitive "int") :=
  ⟨(contains_spec.1 _ _).mpr ⟨.primitive "string", by simp,
      by simp [Equal, typeName, isPrim]⟩,
   contains_spec.2 _ _ (by rfl)⟩

/-- Claim C7: for every `Fixed` value, whatever its `Size`, the encoder
produces an object with the `type` key mapped to `"fixed"` and the `name`
key mapped to the name, with `namespace` and `aliases` present exactly when
non-empty, and with no `size` key at all. -/
theorem fixed_marshal_keys (nm ns : String) (sz : Int) (al : List String) :
    ∃ l, marshalSchema (.fixed nm ns sz al) = .obj l
      ∧ lookupLast l "type" = some (.str "fixed")
      ∧ lookupLast l "name" = some (.str nm)
      ∧ lookupLast l "namespace"
        = (if ns = "" then none else some (.str ns))
      ∧ lookupLast l "aliases"
        = (if al = [] then none else some (strArr al))
      ∧ lookupLast l "size" = none := by
  refine ⟨(if al = [] then [] else [("aliases", strArr al)])
      ++ [("name", Json.str nm)]
      ++ (if ns = "" then [] else [("namespace", Json.str ns)])
      ++ [("type", Json.str "fixed")],
    by rw [marshalSchema], ?_, ?_, ?_, ?_, ?_⟩ <;>
  · by_cases hns : ns = "" <;> by_cases hal : al = [] <;>
      simp [hns, hal, lookupLast]

/-- Claim C8: `Field` equality depends only on the names and on `Equal` of
the types — it is unchanged by replacing `doc`, `default`, `aliases` and
`order` with anything else, and two fields with the same name and `Equal`
types always compare equal. -/
theorem field_equal_ignores_metadata :
    (∀ (n1 n2 : String) (t1 t2 : Option Schema) (d1 d2 : String)
        (df1 df2 : Option Json) (a1 a2 : List String) (o1 o2 : String),
      fieldIsEqual (.mk n1 t1 d1 df1 a1 o1) (.mk n2 t2 d2 df2 a2 o2)
        = fieldIsEqual (.mk n1 t1 "" none [] "") (.mk n2 t2 "" none [] ""))
    ∧ (∀ (n : String) (t1 t2 : Schema) (d1 d2 : String) (df1 df2 : Option Json)
        (a1 a2 : List String) (o1 o2 : String), Equal t1 t2 = true →
      fieldIsEqual (.mk n (some t1) d1 df1 a1 o1)
        (.mk n (some t2) d2 df2 a2 o2) = true) := by
  constructor
  · intro n1 n2 t1 t2 d1 d2 df1 df2 a1 a2 o1 o2
    simp [fieldIsEqual]
  · intro n t1 t2 d1 d2 df1 df2 a1 a2 o1 o2 h
    simp [fieldIsEqual, optEqual, h]

/-- Witness for C8 at two fields differing in every metadata attribute. -/
theorem field_equal_ignores_metadata_witness :
    fieldIsEqual
      (.mk "id" (some (.primitive "string")) "docA" (some (.str "x"))
        ["a"] "ascending")
      (.mk "id" (some (.primitive "string")) "" none [] "descending")
      = true :=
  field_equal_ignores_metadata.2 _ _ _ _ _ _ _ _ _ _ _
    (by simp [Equal, typeName, isPrim])

/-- Claim C9: decoding an input that is empty or consists only of whitespace
returns an absent schema and no error, for any underlying JSON parser. -/
theorem unmarshal_empty_input (parse : List Char → Except String Json)
    (b : List Char) (h : trimSpace b = []) :
    Unmarshal parse b = .ok none := by
  simp [Unmarshal, h]

/-- Witness for C9 on a whitespace-only input (the parser is never
consulted). -/
theorem unmarshal_empty_input_witness :
    Unmarshal (fun _ => .error "unused") [' ', '\t', '\n'] = .ok none :=
  unmarshal_empty_input _ _ (by rfl)

/-- Claim C10: `Contains` is not reflexive on `Union`s — for every union
none of whose members is `Equal` to the union itself, `Contains(u, u)` is
`false`, because the member argument is only compared against the union's
members; the claim's companion assertion that `Equal(u, u)` is always `true`
fails, however, on unions containing a `Fixed` (the missing `*Fixed` switch
case), as the concrete evaluation shows. -/
theorem contains_union_not_reflexive :
    (∀ l : List Schema, (∀ m ∈ l, Equal m (.union l) = false) →
      Contains (.union l) (.union l) = false)
    ∧ Equal (.fixed "f" "" 0 []) (.union [.fixed "f" "" 0 []]) = false
    ∧ Contains (.union [.fixed "f" "" 0 []])
        (.union [.fixed "f" "" 0 []]) = false
    ∧ Equal (.union [.fixed "f" "" 0 []])
        (.union [.fixed "f" "" 0 []]) = false := by
  refine ⟨?_, ?_, ?_, ?_⟩
  · intro l h
    rw [Contains]
    exact unionContains_false h
  · simp [Equal, typeName, isPrim]
  · simp [Contains, unionContains, Equal, typeName, isPrim]
  · simp [Equal, typeName, isPrim, unionIsEqual]

/-- Witness for C10 at the singleton union of `null`. -/
theorem contains_union_not_reflexive_witness :
    Contains (.union [.primitive "null"]) (.union [.primitive "null"])
      = false :=
  contains_union_not_reflexive.1 _ (by
    intro m hm
    simp only [List.mem_singleton] at hm
    subst hm
    simp [Equal, typeName, isPrim])

end GoAvro
